import Mathlib

/-!
# Verification of the penv version/environment manager core

A shallow embedding of the core subsystem of `penv` (version-requirement
resolution, downloader, installed-release cache, environment lifecycle and
orchestrator), translated from the Rust sources, together with proofs and
refutations of the specified properties.

Machine integers do not occur on the verified paths; versions are triples of
arbitrary-precision naturals plus a pre-release tag, exactly as `semver`
stores them.  Fallible Rust functions (`Result`) are embedded as `Except`;
Rust panics (`unreachable!`, `unimplemented!`, out-of-bounds slicing) are
embedded as an outer `Option` layer where `none` marks the panic.
-/

/-! ## The embedded data model, operations and concrete fixtures -/

/-- One dot-separated pre-release identifier of a semantic version:
either numeric or alphanumeric (`semver::Prerelease`). -/
inductive PreId
  | num (n : Nat)
  | str (s : String)
  deriving DecidableEq, Repr

/-- A semantic version `major.minor.patch[-pre]`, as stored by `semver::Version`
(build metadata is dropped; it does not occur on any verified path). -/
structure Version where
  major : Nat
  minor : Nat
  patch : Nat
  pre : List PreId
  deriving DecidableEq, Repr

/-- Order key of a pre-release identifier: numeric identifiers sort below
alphanumeric ones, numerics numerically, alphanumerics lexically. -/
def PreId.key : PreId → Nat ⊕ₗ String
  | .num n => toLex (Sum.inl n)
  | .str s => toLex (Sum.inr s)

/-- Order key of a version, mirroring `semver`'s `Ord`: lexicographic on
major, minor, patch, then "a pre-release sorts below the plain release"
(the `Nat` flag), then the pre-release identifier list lexicographically. -/
def Version.key (v : Version) : Lex (Nat × Lex (Nat × Lex (Nat × Lex (Bool × List (Nat ⊕ₗ String))))) :=
  toLex (v.major, toLex (v.minor, toLex (v.patch,
    toLex (v.pre.isEmpty, v.pre.map PreId.key))))

instance : LinearOrder Version :=
  LinearOrder.lift' Version.key (by
    have hpre : Function.Injective PreId.key := by
      intro a b h
      cases a <;> cases b <;> simp [PreId.key, toLex] at h <;> simp [h]
    intro a b h
    have h' : (a.major, (a.minor, (a.patch, (a.pre.isEmpty, a.pre.map PreId.key)))) =
        (b.major, (b.minor, (b.patch, (b.pre.isEmpty, b.pre.map PreId.key)))) := h
    simp only [Prod.mk.injEq] at h'
    obtain ⟨h1, h2, h3, -, h5⟩ := h'
    have h6 := List.map_injective_iff.mpr hpre h5
    cases a; cases b; simp_all)

/-- The `Iterator::max_by_key` / `Iterator::max` as used by the sources: `none` on
an empty list, otherwise the element with the greatest key, the **last** such
element winning ties (Rust's documented tie-breaking). -/
def maxByKey {α : Type _} {κ : Type _} [LinearOrder κ] (key : α → κ) : List α → Option α
  | [] => none
  | x :: xs => some (xs.foldl (fun acc y => if key acc ≤ key y then y else acc) x)

/-- A semver range (`semver::VersionReq`).  The `semver` crate is an external
dependency; its range type is embedded abstractly as its matching predicate,
which is all the repository ever consults (`VersionReq::matches`). -/
def VersionReq : Type := Version → Bool

/-- The `VersionReq::matches`. -/
def VersionReq.matches (r : VersionReq) (v : Version) : Bool := r v

/-- The `VersionReqOrLatest`: the literal `latest` or a semver range. -/
inductive VersionReqOrLatest
  | latest
  | versionReq (r : VersionReq)

/-- The `VersionReqOrLatest::matches` (version.rs lines 104-111): `Latest` matches
`v` iff `v` equals the supplied `latest_version`; a range matches by range
containment. -/
def VersionReqOrLatest.matches (req : VersionReqOrLatest) (v latestVersion : Version) : Bool :=
  match req with
  | .latest => v == latestVersion
  | .versionReq r => r.matches v

/-- The `RepoOrVersion`: an installed-side specifier, an exact version or a
repository location string. -/
inductive RepoOrVersion
  | version (v : Version)
  | repo (s : String)
  deriving DecidableEq

/-- The `RepoOrVersionReq`: a user-side specifier, a version requirement or a
repository location string. -/
inductive RepoOrVersionReq
  | versionReqOrLatest (r : VersionReqOrLatest)
  | repo (s : String)

/-- An enriched remote asset (`Asset`): optional platform triple parsed from
the file name, download URL, optional published checksum.  Platform triples
are embedded as strings. -/
structure Asset where
  targetArch : Option String
  browserDownloadUrl : String
  expectedSha256sum : Option String
  deriving DecidableEq

/-- An enriched remote release (`Release`): version, optional notes, assets,
display name.  `Ord` on releases compares by version only. -/
structure Release where
  version : Version
  body : Option String
  assets : List Asset
  name : String
  deriving DecidableEq

/-- A raw asset as deserialized from the remote index JSON (`RawAsset`):
the fields the enriching conversion reads. -/
structure RawAsset where
  name : String
  browserDownloadUrl : String
  deriving DecidableEq

/-- A raw release as deserialized from the remote index JSON (`RawRelease`),
before enriching.  Only the fields the conversion reads are kept. -/
structure RawRelease where
  tagName : String
  name : String
  body : Option String
  assets : List RawAsset
  deriving DecidableEq

/-- An asset recorded in the cache index (`InstalledAsset`). -/
structure InstalledAsset where
  targetArch : String
  localFilepath : String
  deriving DecidableEq

/-- The cache record of an installed binary release (`InstalledBinaryRelease`). -/
structure InstalledBinaryRelease where
  version : Version
  body : Option String
  assets : List InstalledAsset
  name : String
  rootDir : String
  deriving DecidableEq

/-- The cache record of a git checkout (`CheckoutMetadata`). -/
structure CheckoutMetadata where
  name : String
  url : String
  installPath : String
  deriving DecidableEq

/-- A persisted cache record (`InstalledRelease`): binary or git checkout. -/
inductive InstalledRelease
  | binary (r : InstalledBinaryRelease)
  | gitCheckout (m : CheckoutMetadata)
  deriving DecidableEq

/-- The `Vec::retain` with a closure that can panic: the closure runs on every
element in order; the first panic aborts. -/
def retainP {α : Type _} (p : α → Option Bool) : List α → Option (List α)
  | [] => some []
  | x :: xs =>
    match p x with
    | none => none
    | some b => (retainP p xs).map (fun r => if b then x :: r else r)

/-- Loop of `maxByKeyOpt`: running maximum `acc` with key `kacc`. -/
def maxByKeyOptGo {α : Type _} {κ : Type _} [LinearOrder κ] (key : α → Option κ)
    (acc : α) (kacc : κ) : List α → Option (Option α)
  | [] => some (some acc)
  | y :: ys =>
    match key y with
    | none => none
    | some ky => if kacc ≤ ky then maxByKeyOptGo key y ky ys else maxByKeyOptGo key acc kacc ys

/-- The `Iterator::max_by_key` with a key closure that can panic (as in
`Cache::find_best_match`, whose key is `unreachable!` on a checkout): the key
runs on every element in order; the first panic aborts; otherwise the result
is as `maxByKey`, the last maximal element winning ties. -/
def maxByKeyOpt {α : Type _} {κ : Type _} [LinearOrder κ] (key : α → Option κ) :
    List α → Option (Option α)
  | [] => some none
  | x :: xs =>
    match key x with
    | none => none
    | some kx => maxByKeyOptGo key x kx xs

/-- The path whose removal `uninstall` attempts: the binary release's
`root_dir`, or the checkout's `install_path`. -/
def InstalledRelease.uninstallPath : InstalledRelease → String
  | .binary r => r.rootDir
  | .gitCheckout m => m.installPath

/-- The on-disk state the cache mutates: the set of directory trees that
exist, plus the trees whose removal would fail (modelling a failing
`std::fs::remove_dir_all`, e.g. on a permission error). -/
structure DiskFs where
  dirs : List String
  locked : List String
  deriving DecidableEq

/-- The `UsableRelease::uninstall` (git_repo.rs lines 69-78 for checkouts, and its
verbatim binary twin in `src/pvm/release/release/binary.rs` lines 254-263):
if the recorded tree exists, remove it — propagating a removal failure —
otherwise succeed without touching the disk. -/
def InstalledRelease.uninstall (r : InstalledRelease) (fs : DiskFs) : Except Unit DiskFs :=
  if r.uninstallPath ∈ fs.dirs then
    if r.uninstallPath ∈ fs.locked then .error ()
    else .ok { fs with dirs := fs.dirs.erase r.uninstallPath }
  else .ok fs

/-- The `Cache::delete` (cache.rs lines 50-59): `retain` drops every in-memory
record equal to the argument, **then** `uninstall` removes the on-disk tree.
The returned triple is the new record list, the new disk state, and the error
(if any) — on error the `retain` has already happened. -/
def cacheDelete (records : List InstalledRelease) (fs : DiskFs) (r : InstalledRelease) :
    List InstalledRelease × DiskFs × Option Unit :=
  let records' := records.filter (fun x => x ≠ r)
  match r.uninstall fs with
  | .error e => (records', fs, some e)
  | .ok fs' => (records', fs', none)

/-- The `retain` closure of `Cache::list_installed` (cache.rs lines 243-264):
binary × range → range containment; binary × `Latest` →
`unreachable!("can't search installed for 'latest'")` (a panic, `none`);
checkout × repo → exact URL equality; the two cross-kind pairs → `false`. -/
def listInstalledPred (req : RepoOrVersionReq) : InstalledRelease → Option Bool
  | .binary r =>
    match req with
    | .versionReqOrLatest .latest => none
    | .versionReqOrLatest (.versionReq vr) => some (vr.matches r.version)
    | .repo _ => some false
  | .gitCheckout checkout =>
    match req with
    | .repo repo => some (checkout.url == repo)
    | .versionReqOrLatest _ => some false

/-- The `Cache::list_installed` (cache.rs lines 236-268) over the in-memory record
list; `none` on the requirement means no filtering. -/
def listInstalledP (records : List InstalledRelease) (req : Option RepoOrVersionReq) :
    Option (List InstalledRelease) :=
  match req with
  | none => some records
  | some req => retainP (listInstalledPred req) records

/-- The `max_by_key` key of `Cache::find_best_match` (cache.rs lines 73-78):
a binary's version; `unreachable!` (a panic, `none`) on a checkout. -/
def findBestMatchKey : InstalledRelease → Option Version
  | .binary r => some r.version
  | .gitCheckout _ => none

/-- The `Cache::find_best_match` (cache.rs lines 62-84): filter the installed
records through `list_installed`, then pick the maximal version for a version
requirement or the first element for a repository requirement.  The outer
`Option` is the panic layer (either the `Latest` `unreachable!` inside
`list_installed` or the checkout `unreachable!` inside the key). -/
def findBestMatchP (records : List InstalledRelease) (req : RepoOrVersionReq) :
    Option (Option InstalledRelease) :=
  match listInstalledP records (some req) with
  | none => none
  | some matching =>
    match req with
    | .versionReqOrLatest _ => maxByKeyOpt findBestMatchKey matching
    | .repo _ => some matching.head?

/-- The `InstalledRelease::matches`.  Modelled from the spec: the function lives in
the `src/penv/release` module file absent from the sources (only its callers
are present); §4.1 fixes it — "an `ExactVersion` specifier matches only
bit-for-bit equal versions; a `RepoLocation` specifier matches only exact URL
string equality", and the two specifier families are disjoint. -/
def InstalledRelease.matches (r : InstalledRelease) (spec : RepoOrVersion) : Bool :=
  match r, spec with
  | .binary b, .version v => b.version == v
  | .gitCheckout c, .repo u => c.url == u
  | .binary _, .repo _ => false
  | .gitCheckout _, .version _ => false

/-- The `Cache::get_installed_release` (cache.rs lines 126-134). -/
def getInstalledRelease (records : List InstalledRelease) (spec : RepoOrVersion) :
    Option InstalledRelease :=
  records.find? (fun r => r.matches spec)

/-- The `Cache::list_available` (cache.rs lines 196-233): the latest remote version
is the maximum of the fetched releases (`iter().max()`, ordering by version);
error when the fetch is empty; retain the releases matching the requirement
against that latest version; annotate each with whether it is installed. -/
def listAvailable (fetched : List Release) (req : Option RepoOrVersionReq)
    (records : List InstalledRelease) : Except Unit (List (Release × Bool)) :=
  match maxByKey (fun r : Release => r.version) fetched with
  | none => .error ()
  | some latest =>
    let retained := fetched.filter (fun r =>
      match req with
      | some required =>
        match required with
        | .versionReqOrLatest vr => vr.matches r.version latest.version
        | .repo _ => false
      | none => true)
    .ok (retained.map (fun r =>
      (r, (getInstalledRelease records (.version r.version)).isSome)))

/-- Fields common to all environment types (`EnvironmentMetadata`); URLs and
paths are embedded as strings. -/
structure EnvironmentMetadata where
  aliasName : String
  grpcUrl : String
  rootDir : String
  pdJoinUrl : String
  clientOnly : Bool
  generateNetwork : Bool
  deriving DecidableEq

/-- A checkout environment (`CheckoutEnvironment`): shared metadata plus the
backing git checkout's cache record. -/
structure CheckoutEnvironment where
  metadata : EnvironmentMetadata
  gitCheckout : CheckoutMetadata
  deriving DecidableEq

/-- A binary environment (`BinaryEnvironment`): shared metadata, the
user-supplied version requirement, and the pinned exact version. -/
structure BinaryEnvironment where
  metadata : EnvironmentMetadata
  versionRequirement : VersionReqOrLatest
  pinnedVersion : Version

/-- The tagged environment union (`Environment`). -/
inductive Environment
  | checkoutEnvironment (e : CheckoutEnvironment)
  | binaryEnvironment (e : BinaryEnvironment)

/-- The `EnvironmentTrait::metadata` dispatch (environment/mod.rs lines 79-84). -/
def Environment.metadata : Environment → EnvironmentMetadata
  | .checkoutEnvironment e => e.metadata
  | .binaryEnvironment e => e.metadata

/-- The `ManagedFile::path`: both variants return `metadata.root_dir`. -/
def Environment.path (e : Environment) : String := e.metadata.rootDir

/-- The `CheckoutEnvironment::satisfied_by_version` (checkout/environment.rs lines
193-201): never satisfied by a binary version; a repo specifier matches by
exact URL equality with the backing checkout. -/
def CheckoutEnvironment.satisfiedByVersion (e : CheckoutEnvironment) (spec : RepoOrVersion) :
    Bool :=
  match spec with
  | .version _ => false
  | .repo repo => repo == e.gitCheckout.url

/-- The `BinaryEnvironment::satisfied_by_version` (binary/environment.rs lines
278-291).  The `Latest` × version arm is
`unimplemented!("don't have latest version here")` — a panic, `none`. -/
def BinaryEnvironment.satisfiedByVersionP (e : BinaryEnvironment) (spec : RepoOrVersion) :
    Option Bool :=
  match e.versionRequirement, spec with
  | .versionReq vr, .version v => some (vr.matches v)
  | .latest, .version _ => none
  | .latest, .repo _ => some false
  | .versionReq _, .repo _ => some false

/-- The public `Environment::satisfied_by_version` dispatch (environment/mod.rs
lines 72-77): a checkout environment is answered `false` directly — the
`CheckoutEnvironment` implementation is never consulted — and a binary
environment defers to its own implementation. -/
def Environment.satisfiedByVersionP : Environment → RepoOrVersion → Option Bool
  | .checkoutEnvironment _, _ => some false
  | .binaryEnvironment e, spec => e.satisfiedByVersionP spec

/-- The in-memory orchestrator state (`Penv`), minus the network downloader:
repository identity, home directory, the cache (home + records), the
environment list, and the active-environment reference. -/
structure Penv where
  repositoryName : String
  homeDir : String
  cacheHome : String
  cacheData : List InstalledRelease
  environments : List Environment
  activeEnvironment : Option Environment

/-- The orchestrator index file contents (`impl Serialize for Penv`, penv.rs
lines 53-72): repository name, home dir, the active environment's **alias**
(never a pointer), the cache data, and the environment list. -/
structure PersistedPenv where
  repositoryName : String
  homeDir : String
  activeEnvironment : Option String
  cacheData : List InstalledRelease
  environments : List Environment

/-- The `impl Serialize for Penv` (penv.rs lines 53-72). -/
def serializePenv (p : Penv) : PersistedPenv :=
  { repositoryName := p.repositoryName
    homeDir := p.homeDir
    activeEnvironment := p.activeEnvironment.map (fun e => e.metadata.aliasName)
    cacheData := p.cacheData
    environments := p.environments }

/-- The `impl Deserialize for Penv` (penv.rs lines 74-209): all fields are
rebuilt from the file; the active-environment reference is re-resolved by
looking its alias up in the freshly deserialized environment list, and the
cache's home is the deserialized home dir. -/
def deserializePenv (s : PersistedPenv) : Penv :=
  { repositoryName := s.repositoryName
    homeDir := s.homeDir
    cacheHome := s.homeDir
    cacheData := s.cacheData
    environments := s.environments
    activeEnvironment := s.activeEnvironment.bind (fun a =>
      s.environments.find? (fun e => e.metadata.aliasName == a)) }

/-- The slice of the filesystem the activation workflow touches: the set of
existing directories and the single `<home>/bin` symlink (its current target,
or `none` when absent). -/
structure LinkFs where
  dirs : List String
  binLink : Option String
  deriving DecidableEq

/-- Whether `fs::metadata(<home>/bin)` succeeds: `metadata` follows symlinks,
so it succeeds exactly when the link exists **and** its target exists. -/
def LinkFs.linkResolves (fs : LinkFs) : Bool :=
  match fs.binLink with
  | none => false
  | some t => t ∈ fs.dirs

/-- A symlink-creation failure (`create_symlink`'s error paths). -/
inductive SymlinkError
  | targetMissing
  | alreadyExistsDangling
  deriving DecidableEq

/-- The `create_symlink` (environment/mod.rs lines 167-196), instantiated at the
`<home>/bin` link: error if the target does not exist; if `fs::metadata` on
the link path succeeds ("symlink already existed"), return `Ok` **without
re-pointing the link**; if the link exists but dangles, `metadata` fails and
the `symlink` syscall then fails with `EEXIST`; otherwise create the link. -/
def createBinSymlink (fs : LinkFs) (target : String) : Except SymlinkError LinkFs :=
  if target ∈ fs.dirs then
    match fs.binLink with
    | some t =>
      if t ∈ fs.dirs then .ok fs
      else .error .alreadyExistsDangling
    | none => .ok { fs with binLink := some target }
  else .error .targetMissing

/-- The world the activation workflow acts on: the orchestrator state, the
link-relevant filesystem slice, and the last persisted index file
(`<home>/penv.toml`) contents. -/
structure World where
  penv : Penv
  fs : LinkFs
  penvToml : Option PersistedPenv

/-- The `Penv::persist` (penv.rs lines 687-702), disk errors aside: serialize the
orchestrator state and write it to `<home>/penv.toml` (the cache's own
`cache.toml` write is separate and not tracked here). -/
def persistPenv (w : World) : World :=
  { w with penvToml := some (serializePenv w.penv) }

/-- The `Penv::activate` (penv.rs lines 718-735): find the environment by alias
(error if absent), point the in-memory active-environment reference at it,
then call `create_symlink` from the environment's `bin` directory to
`<home>/bin`.  Nothing is persisted. -/
def activate (w : World) (environmentAlias : String) : Except (Option SymlinkError) World :=
  match w.penv.environments.find? (fun e => e.metadata.aliasName == environmentAlias) with
  | none => .error none
  | some env =>
    match createBinSymlink w.fs (env.path ++ "/bin") with
    | .error e => .error (some e)
    | .ok fs' =>
      .ok { w with penv := { w.penv with activeEnvironment := some env }, fs := fs' }

/-- The `Penv::deactivate` (penv.rs lines 266-284): clear the active-environment
reference; remove the `<home>/bin` link when `fs::metadata` on it succeeds
(following the link — a dangling link is left in place); then `persist`. -/
def deactivate (w : World) : World :=
  let fs' := if w.fs.linkResolves then { w.fs with binLink := none } else w.fs
  persistPenv { w with penv := { w.penv with activeEnvironment := none }, fs := fs' }

/-- Split a character list at every occurrence of `sep`; the result is always
nonempty, mirroring `str::split`. -/
def charsSplitOn (sep : Char) : List Char → List (List Char)
  | [] => [[]]
  | c :: cs =>
    match charsSplitOn sep cs with
    | [] => [[]]
    | g :: gs => if c = sep then [] :: g :: gs else (c :: g) :: gs

/-- Decimal digit parsing of a whole (nonempty, digits-only) identifier, as
`u64`'s `FromStr` restricted to the widths that occur; `none` otherwise. -/
def parseNatChars (l : List Char) : Option Nat :=
  if l.isEmpty then none
  else if l.all (fun c => c.isDigit) then
    some (l.foldl (fun n c => n * 10 + (c.toNat - 48)) 0)
  else none

/-- Parse one dot-separated pre-release identifier: nonempty; numeric if all
digits, else alphanumeric. -/
def parsePreIdChars (l : List Char) : Option PreId :=
  if l.isEmpty then none
  else match parseNatChars l with
    | some n => some (.num n)
    | none => some (.str (String.mk l))

/-- The `semver::Version::parse`, to the precision the verified paths need:
`major.minor.patch` decimal components with an optional `-pre` tail of
dot-separated identifiers (build metadata and the leading-zero rule are not
modelled; no verified property depends on them). -/
def parseVersion (s : String) : Option Version :=
  let chars := s.data
  let core := chars.takeWhile (fun c => c != '-')
  let rest := chars.drop core.length
  match charsSplitOn '.' core with
  | [maj, minp, pat] => do
    let major ← parseNatChars maj
    let minor ← parseNatChars minp
    let patch ← parseNatChars pat
    match rest with
    | [] => pure { major, minor, patch, pre := [] }
    | _ :: preChars => do
      let pre ← (charsSplitOn '.' preChars).mapM parsePreIdChars
      pure { major, minor, patch, pre }
  | _ => none

/-- Join character-list fragments with `-` between them. -/
def joinDashes : List (List Char) → List Char
  | [] => []
  | [g] => g
  | g :: gs => g ++ '-' :: joinDashes gs

/-- The `extract_triple` (version.rs lines 137-159): pull a platform triple out of
an asset file name.  Approximated as "the three final `-`-separated fragments
before the first `.`"; it is total (`none` only when no triple is found), and
no verified property depends on which names yield a triple. -/
def extractTriple (filename : String) : Option String :=
  let stem := filename.data.takeWhile (fun c => c != '.')
  let parts := charsSplitOn '-' stem
  if parts.length ≥ 4 then
    some (String.mk (joinDashes (parts.drop (parts.length - 3))))
  else none

/-- The `impl TryInto<Asset> for RawAsset` (asset.rs): infallible — the triple is
extracted from the name when recognizable, and no checksum is attached at
enrichment time. -/
def enrichAsset (a : RawAsset) : Asset :=
  { targetArch := extractTriple a.name
    browserDownloadUrl := a.browserDownloadUrl
    expectedSha256sum := none }

/-- The enriched release built from a raw release and its parsed version. -/
def enrichedRelease (r : RawRelease) (v : Version) : Release :=
  { version := v, body := r.body, assets := r.assets.map enrichAsset, name := r.name }

/-- The `impl TryInto<Release> for &RawRelease`:
`Version::parse(&self.tag_name[1..])?` then enrich every asset.  Slicing
`[1..]` out of an empty tag is an out-of-bounds byte index — a panic, the
outer `none`; an unparsable version is an `Err`. -/
def enrichRelease (r : RawRelease) : Option (Except Unit Release) :=
  if r.tagName.isEmpty then none
  else
    match parseVersion (r.tagName.drop 1) with
    | none => some (.error ())
    | some v => some (.ok (enrichedRelease r v))

/-- The conversion step of `Downloader::fetch_releases` (downloader.rs lines
84-97): `releases.iter().map(|r| r.try_into()).collect::<Result<_>>()` —
convert in order, the first `Err` aborting the whole collection with no
partial list (and the first panic aborting the process). -/
def fetchConvert : List RawRelease → Option (Except Unit (List Release))
  | [] => some (.ok [])
  | r :: rs =>
    match enrichRelease r with
    | none => none
    | some (.error e) => some (.error e)
    | some (.ok rel) => (fetchConvert rs).map (fun res => res.map (fun l => rel :: l))

/-- The downloader's failure taxonomy for one archive. -/
inductive DownloadError
  | remoteFailure
  | checksumMismatch
  | extractionFailure
  deriving DecidableEq

/-- The tail of `Downloader::download_file` (downloader.rs lines 143-188) once
the body has streamed: with a published checksum, compare it against the
SHA-256 digest of the downloaded bytes and abort on mismatch; with none,
skip verification; then surface the extraction outcome. -/
def downloadFileResult (fileName : String) (calculatedHash : List Nat)
    (expectedShasum : Option (List Nat)) (extractedFiles : Except Unit (List String)) :
    Except DownloadError (String × List String) :=
  match expectedShasum with
  | some expected =>
    if calculatedHash ≠ expected then .error .checksumMismatch
    else
      match extractedFiles with
      | .ok files => .ok (fileName, files)
      | .error _ => .error .extractionFailure
  | none =>
    match extractedFiles with
    | .ok files => .ok (fileName, files)
    | .error _ => .error .extractionFailure

/-- The join loop of `Downloader::download_release` (downloader.rs lines
410-439): every spawned archive task is awaited; a task whose
`download_file` failed panicked through its `expect`, and `handle.await?`
surfaces the first such failure — so one failing archive fails the whole
call. -/
def downloadReleaseJoin : List (Except DownloadError (String × List String)) →
    Except DownloadError (List (String × List String))
  | [] => .ok []
  | r :: rs =>
    match r with
    | .error e => .error e
    | .ok x =>
      match downloadReleaseJoin rs with
      | .error e => .error e
      | .ok xs => .ok (x :: xs)

/-- The `Penv::install_release`'s commit point (penv.rs lines 658-681) together
with `Cache::install_release` (cache.rs lines 86-99): a download error
propagates out with the cache untouched; a staged release is materialized and
its record appended to the in-memory list. -/
def installReleaseFinish (records : List InstalledRelease)
    (downloadResult : Except DownloadError InstalledRelease) :
    List InstalledRelease × Option DownloadError :=
  match downloadResult with
  | .error e => (records, some e)
  | .ok rel => (records ++ [rel], none)

def v100 : Version := { major := 1, minor := 0, patch := 0, pre := [] }

def v110 : Version := { major := 1, minor := 1, patch := 0, pre := [] }

def repoUrl : String := "https://github.com/penumbra-zone/penumbra"

def devMeta : EnvironmentMetadata :=
  { aliasName := "dev", grpcUrl := "http://localhost:8080"
    rootDir := "/home/environments/dev", pdJoinUrl := "http://node.example"
    clientOnly := false, generateNetwork := false }

def dev2Meta : EnvironmentMetadata :=
  { devMeta with aliasName := "dev2", rootDir := "/home/environments/dev2" }

def devCheckout : CheckoutMetadata :=
  { name := "penumbra", url := repoUrl, installPath := "/home/checkouts/0a1b" }

def devCheckoutEnv : CheckoutEnvironment := { metadata := devMeta, gitCheckout := devCheckout }

def devEnv : Environment := .checkoutEnvironment devCheckoutEnv

def dev2Env : Environment := .checkoutEnvironment { metadata := dev2Meta, gitCheckout := devCheckout }

def binRel100 : InstalledRelease :=
  .binary { version := v100, body := none, assets := [], name := "v1.0.0"
            rootDir := "/home/versions/1.0.0" }

def latestBinEnv : BinaryEnvironment :=
  { metadata := devMeta, versionRequirement := .latest, pinnedVersion := v100 }

def lockedDisk : DiskFs :=
  { dirs := ["/home/versions/1.0.0"], locked := ["/home/versions/1.0.0"] }

def twoEnvWorld : World :=
  { penv := { repositoryName := "penumbra-zone/penumbra", homeDir := "/home"
              cacheHome := "/home", cacheData := []
              environments := [devEnv, dev2Env], activeEnvironment := some devEnv }
    fs := { dirs := ["/home/environments/dev/bin", "/home/environments/dev2/bin"]
            binLink := some "/home/environments/dev/bin" }
    penvToml := none }

def freshWorld : World :=
  { twoEnvWorld with
    penv := { twoEnvWorld.penv with activeEnvironment := none }
    fs := { twoEnvWorld.fs with binLink := none } }

/-- The world `activate freshWorld "dev"` produces: `dev` active, the link
freshly created at `dev`'s `bin` directory. -/
def freshWorldA : World :=
  { freshWorld with
    penv := { freshWorld.penv with activeEnvironment := some devEnv }
    fs := { freshWorld.fs with binLink := some (devEnv.path ++ "/bin") } }

def rawGood : RawRelease := { tagName := "v1.0.0", name := "Release 1.0.0", body := none, assets := [] }

def rawBad : RawRelease := { tagName := "vnope", name := "Broken", body := none, assets := [] }

def rel100 : Release := { version := v100, body := none, assets := [], name := "v1.0.0" }

def rel110 : Release := { version := v110, body := none, assets := [], name := "v1.1.0" }

def isCheckoutWithUrl (u : String) : InstalledRelease → Bool
  | .gitCheckout c => c.url == u
  | .binary _ => false

def binarySatisfies (vr : VersionReq) : InstalledRelease → Bool
  | .binary b => vr.matches b.version
  | .gitCheckout _ => false

def isBinaryRelease : InstalledRelease → Bool
  | .binary _ => true
  | .gitCheckout _ => false

def checkoutRel : InstalledRelease := .gitCheckout devCheckout

/-! ## Properties -/

theorem maxByKey_foldl_spec {α : Type _} {κ : Type _} [LinearOrder κ] (key : α → κ) :
    ∀ (xs : List α) (acc : α),
      (xs.foldl (fun a y => if key a ≤ key y then y else a) acc = acc ∨
        xs.foldl (fun a y => if key a ≤ key y then y else a) acc ∈ xs) ∧
      key acc ≤ key (xs.foldl (fun a y => if key a ≤ key y then y else a) acc) ∧
      ∀ a ∈ xs, key a ≤ key (xs.foldl (fun a y => if key a ≤ key y then y else a) acc) := by
  intro xs
  induction xs with
  | nil => intro acc; simp
  | cons x xs ih =>
    intro acc
    simp only [List.foldl_cons]
    by_cases h : key acc ≤ key x
    · simp only [if_pos h]
      obtain ⟨hmem, hle, hall⟩ := ih x
      refine ⟨?_, le_trans h hle, ?_⟩
      · rcases hmem with h' | h'
        · right; simp [h']
        · right; simp [h']
      · intro a ha
        rcases List.mem_cons.mp ha with rfl | ha'
        · exact hle
        · exact hall a ha'
    · simp only [if_neg h]
      obtain ⟨hmem, hle, hall⟩ := ih acc
      refine ⟨?_, hle, ?_⟩
      · rcases hmem with h' | h'
        · left; exact h'
        · right; simp [h']
      · intro a ha
        rcases List.mem_cons.mp ha with rfl | ha'
        · exact le_trans (le_of_not_le h) hle
        · exact hall a ha'

theorem maxByKey_mem {α : Type _} {κ : Type _} [LinearOrder κ] (key : α → κ)
    {l : List α} {m : α} (h : maxByKey key l = some m) : m ∈ l := by
  cases l with
  | nil => simp [maxByKey] at h
  | cons x xs =>
    simp only [maxByKey, Option.some.injEq] at h
    obtain ⟨hmem, -, -⟩ := maxByKey_foldl_spec key xs x
    subst h
    rcases hmem with h' | h'
    · rw [h']; exact List.mem_cons_self x xs
    · exact List.mem_cons_of_mem x h'

theorem maxByKey_isMax {α : Type _} {κ : Type _} [LinearOrder κ] (key : α → κ)
    {l : List α} {m : α} (h : maxByKey key l = some m) : ∀ a ∈ l, key a ≤ key m := by
  cases l with
  | nil => simp [maxByKey] at h
  | cons x xs =>
    simp only [maxByKey, Option.some.injEq] at h
    obtain ⟨-, hle, hall⟩ := maxByKey_foldl_spec key xs x
    subst h
    intro a ha
    rcases List.mem_cons.mp ha with rfl | ha'
    · exact hle
    · exact hall a ha'

theorem maxByKey_eq_none_iff {α : Type _} {κ : Type _} [LinearOrder κ] (key : α → κ)
    (l : List α) : maxByKey key l = none ↔ l = [] := by
  cases l <;> simp [maxByKey]

theorem retainP_eq_filter {α : Type _} (p : α → Option Bool) (q : α → Bool)
    (h : ∀ a, p a = some (q a)) : ∀ l : List α, retainP p l = some (l.filter q) := by
  intro l
  induction l with
  | nil => simp [retainP]
  | cons x xs ih =>
    simp only [retainP, h x, ih, Option.map_some]
    by_cases hq : q x = true
    · simp [hq, List.filter_cons]
    · simp only [Bool.not_eq_true] at hq
      simp [hq, List.filter_cons]

theorem retainP_eq_none_of_mem {α : Type _} (p : α → Option Bool) {l : List α} {a : α}
    (ha : a ∈ l) (hp : p a = none) : retainP p l = none := by
  induction l with
  | nil => simp at ha
  | cons x xs ih =>
    rcases List.mem_cons.mp ha with rfl | ha'
    · simp [retainP, hp]
    · simp only [retainP]
      cases hx : p x with
      | none => rfl
      | some b => simp [ih ha']

theorem maxByKeyOptGo_spec {α : Type _} {κ : Type _} [LinearOrder κ] (key : α → Option κ) :
    ∀ (l : List α) (acc : α) (kacc : κ), key acc = some kacc →
      (∀ a ∈ l, (key a).isSome) →
      ∃ m km, maxByKeyOptGo key acc kacc l = some (some m) ∧ key m = some km ∧
        (m = acc ∨ m ∈ l) ∧ kacc ≤ km ∧
        ∀ a ∈ l, ∀ ka, key a = some ka → ka ≤ km := by
  intro l
  induction l with
  | nil =>
    intro acc kacc hacc _
    exact ⟨acc, kacc, rfl, hacc, Or.inl rfl, le_refl _, by simp⟩
  | cons y ys ih =>
    intro acc kacc hacc hall
    have hy : (key y).isSome := hall y (List.mem_cons_self y ys)
    obtain ⟨ky, hky⟩ := Option.isSome_iff_exists.mp hy
    have hys : ∀ a ∈ ys, (key a).isSome := fun a ha => hall a (List.mem_cons_of_mem y ha)
    simp only [maxByKeyOptGo, hky]
    by_cases hle : kacc ≤ ky
    · simp only [if_pos hle]
      obtain ⟨m, km, hm, hkm, hmem, hge, hmax⟩ := ih y ky hky hys
      refine ⟨m, km, hm, hkm, ?_, le_trans hle hge, ?_⟩
      · rcases hmem with rfl | h'
        · exact Or.inr (List.mem_cons_self m ys)
        · exact Or.inr (List.mem_cons_of_mem y h')
      · intro a ha ka hka
        rcases List.mem_cons.mp ha with rfl | ha'
        · rw [hky] at hka; injection hka with hka; subst hka; exact hge
        · exact hmax a ha' ka hka
    · simp only [if_neg hle]
      obtain ⟨m, km, hm, hkm, hmem, hge, hmax⟩ := ih acc kacc hacc hys
      refine ⟨m, km, hm, hkm, ?_, hge, ?_⟩
      · rcases hmem with rfl | h'
        · exact Or.inl rfl
        · exact Or.inr (List.mem_cons_of_mem y h')
      · intro a ha ka hka
        rcases List.mem_cons.mp ha with rfl | ha'
        · rw [hky] at hka; injection hka with hka; subst hka
          exact le_trans (le_of_not_le hle) hge
        · exact hmax a ha' ka hka

theorem maxByKeyOpt_spec {α : Type _} {κ : Type _} [LinearOrder κ] (key : α → Option κ)
    {l : List α} (hne : l ≠ []) (hall : ∀ a ∈ l, (key a).isSome) :
    ∃ m km, maxByKeyOpt key l = some (some m) ∧ m ∈ l ∧ key m = some km ∧
      ∀ a ∈ l, ∀ ka, key a = some ka → ka ≤ km := by
  cases l with
  | nil => exact absurd rfl hne
  | cons x xs =>
    have hx : (key x).isSome := hall x (List.mem_cons_self x xs)
    obtain ⟨kx, hkx⟩ := Option.isSome_iff_exists.mp hx
    have hxs : ∀ a ∈ xs, (key a).isSome := fun a ha => hall a (List.mem_cons_of_mem x ha)
    obtain ⟨m, km, hm, hkm, hmem, hge, hmax⟩ := maxByKeyOptGo_spec key xs x kx hkx hxs
    simp only [maxByKeyOpt, hkx]
    refine ⟨m, km, hm, ?_, hkm, ?_⟩
    · rcases hmem with rfl | h'
      · exact List.mem_cons_self m xs
      · exact List.mem_cons_of_mem x h'
    · intro a ha ka hka
      rcases List.mem_cons.mp ha with rfl | ha'
      · rw [hkx] at hka; injection hka with hka; subst hka; exact hge
      · exact hmax a ha' ka hka

theorem downloadReleaseJoin_error_of_mem {results : List (Except DownloadError (String × List String))}
    {e : DownloadError} (h : Except.error e ∈ results) :
    ∃ e', downloadReleaseJoin results = .error e' := by
  induction results with
  | nil => simp at h
  | cons x xs ih =>
    rcases List.mem_cons.mp h with rfl | h'
    · exact ⟨e, rfl⟩
    · cases x with
      | error e₀ => exact ⟨e₀, rfl⟩
      | ok a =>
        obtain ⟨e', he'⟩ := ih h'
        exact ⟨e', by simp [downloadReleaseJoin, he']⟩

theorem createBinSymlink_ok_link {fs : LinkFs} {t : String} {fs' : LinkFs}
    (h : createBinSymlink fs t = .ok fs') :
    fs' = (match fs.binLink with
           | some _ => fs
           | none => { fs with binLink := some t }) := by
  unfold createBinSymlink at h
  split at h
  · split at h
    next u heq =>
      by_cases hu : u ∈ fs.dirs
      · rw [if_pos hu] at h; injection h with h; exact h.symm
      · rw [if_neg hu] at h; cases h
    next heq =>
      injection h with h; exact h.symm
  · cases h

theorem createBinSymlink_ok_dirs {fs : LinkFs} {t : String} {fs' : LinkFs}
    (h : createBinSymlink fs t = .ok fs') : fs'.dirs = fs.dirs := by
  have h' := createBinSymlink_ok_link h
  cases hl : fs.binLink with
  | none => rw [hl] at h'; rw [h']
  | some u => rw [hl] at h'; rw [h']

/-- C2: the claim says the public `Environment::satisfied_by_version` dispatch
answers a repo specifier on a checkout environment by URL equality.  The
dispatch in fact hardcodes `false` for every checkout environment, while the
(unreached) `CheckoutEnvironment::satisfied_by_version` implementation — the
very code the claim cites — answers `true` on the matching URL: the dispatch
contradicts the variant implementation it was meant to forward to. -/
theorem c2_dispatch_ignores_checkout_url :
    Environment.satisfiedByVersionP devEnv (.repo repoUrl) = some false ∧
    CheckoutEnvironment.satisfiedByVersion devCheckoutEnv (.repo repoUrl) = true := by
  exact ⟨rfl, by decide⟩

/-- C3 counterexample: a binary environment whose requirement is `Latest`,
asked about an exact version, hits `unimplemented!("don't have latest version
here")` — a panic, embedded as `none` — so `satisfied_by_version` is not
total and panic-free over all four combinations. -/
theorem c3_counterexample :
    Environment.satisfiedByVersionP (.binaryEnvironment latestBinEnv) (.version v100) = none :=
  rfl

/-- C3 (amended): `satisfied_by_version` returns a boolean on every
environment-kind × specifier-kind combination **except** a binary environment
with requirement `Latest` asked about an exact version, which panics —
the panic (`none`) happens exactly there. -/
theorem c3_total_except_latest_version (env : Environment) (spec : RepoOrVersion) :
    Environment.satisfiedByVersionP env spec = none ↔
      (∃ be, env = .binaryEnvironment be ∧ be.versionRequirement = .latest ∧
        ∃ v, spec = .version v) := by
  cases env with
  | checkoutEnvironment ce =>
    simp [Environment.satisfiedByVersionP]
  | binaryEnvironment be =>
    cases spec with
    | version v =>
      cases hv : be.versionRequirement with
      | latest =>
        constructor
        · intro _; exact ⟨be, rfl, hv, v, rfl⟩
        · intro _
          simp [Environment.satisfiedByVersionP, BinaryEnvironment.satisfiedByVersionP, hv]
      | versionReq r =>
        constructor
        · intro h
          simp [Environment.satisfiedByVersionP, BinaryEnvironment.satisfiedByVersionP, hv] at h
        · rintro ⟨be', hbe', hlat, -⟩
          injection hbe' with hbe'
          subst hbe'
          rw [hv] at hlat
          cases hlat
    | repo s =>
      constructor
      · intro h
        cases hv : be.versionRequirement <;>
          simp [Environment.satisfiedByVersionP, BinaryEnvironment.satisfiedByVersionP, hv] at h
      · rintro ⟨be', hbe', hlat, v, hv⟩
        cases hv

/-- C4 counterexample: with a single installed release whose directory removal
fails, `Cache::delete` reports the error **after** having already dropped the
in-memory record — the `installed_releases` list is *not* unchanged on error
(it is empty), refuting "removes the on-disk tree first and removes the
in-memory record only if that removal succeeded". -/
theorem c4_counterexample :
    (cacheDelete [binRel100] lockedDisk binRel100).2.2 = some () ∧
    (cacheDelete [binRel100] lockedDisk binRel100).1 = [] ∧
    "/home/versions/1.0.0" ∈ (cacheDelete [binRel100] lockedDisk binRel100).2.1.dirs := by
  refine ⟨by decide, by decide, by decide⟩

/-- C4 (amended): `Cache::delete` removes every in-memory record equal to the
release **first**, unconditionally, and then attempts the on-disk removal;
the disk is updated by `uninstall`'s outcome alone, and on a removal failure
the error is returned with the directory still present but the record already
gone. -/
theorem c4_delete_removes_record_first (records : List InstalledRelease) (fs : DiskFs)
    (r : InstalledRelease) :
    (cacheDelete records fs r).1 = records.filter (fun x => x ≠ r) ∧
    (cacheDelete records fs r).2 = (match r.uninstall fs with
      | .error e => (fs, some e)
      | .ok fs' => (fs', none)) := by
  unfold cacheDelete
  cases h : r.uninstall fs <;> simp [h]

/-- C6: serializing an orchestrator (which records the active environment by
alias, never by pointer) and deserializing the result preserves the
repository name, home dir, cache contents and environment list, and
re-resolves the active-environment reference to the list element whose alias
matches the stored alias — `none` when nothing was active or no element
matches. -/
theorem c6_persist_load_roundtrip (p : Penv) :
    (deserializePenv (serializePenv p)).repositoryName = p.repositoryName ∧
    (deserializePenv (serializePenv p)).homeDir = p.homeDir ∧
    (deserializePenv (serializePenv p)).cacheHome = p.homeDir ∧
    (deserializePenv (serializePenv p)).cacheData = p.cacheData ∧
    (deserializePenv (serializePenv p)).environments = p.environments ∧
    (deserializePenv (serializePenv p)).activeEnvironment =
      p.activeEnvironment.bind (fun e =>
        p.environments.find? (fun x => x.metadata.aliasName == e.metadata.aliasName)) := by
  refine ⟨rfl, rfl, rfl, rfl, rfl, ?_⟩
  cases p with
  | mk rn hd ch cd envs act =>
    cases act <;> simp [serializePenv, deserializePenv]

/-- C1 counterexample: with `dev` active and its link present on disk,
`activate "dev2"` **succeeds** yet `<home>/bin` still points at `dev`'s bin
directory, not `dev2`'s — `create_symlink` returns `Ok` without re-pointing an
existing link, refuting "leaves the single `<home>/bin` symlink pointing at
the bin/ directory of the environment named alias, with no link or stale
target referring to any previously active environment". -/
theorem c1_counterexample :
    (activate twoEnvWorld "dev2").map (fun w => w.fs.binLink) =
      .ok (some "/home/environments/dev/bin") ∧
    dev2Env.path ++ "/bin" = "/home/environments/dev2/bin" ∧
    "/home/environments/dev/bin" ≠ "/home/environments/dev2/bin" := by
  refine ⟨rfl, rfl, by decide⟩

/-- C1 (amended): a successful `activate(alias)` re-points the in-memory
active-environment reference at the environment named `alias`, but touches
the `<home>/bin` link only when none is present: an existing (resolving) link
— including one pointing at the previously active environment — is left
unchanged, and only when no link exists is one created to the bin/ directory
of the environment named `alias`; removing a prior link is solely
`deactivate`'s job (which the CLI `use` command runs first). -/
theorem c1_activate_leaves_existing_link (w : World) (a : String) (env : Environment)
    (w' : World)
    (hfind : w.penv.environments.find? (fun e => e.metadata.aliasName == a) = some env)
    (hok : activate w a = .ok w') :
    w'.penv.activeEnvironment = some env ∧
    w'.fs = (match w.fs.binLink with
             | some _ => w.fs
             | none => { w.fs with binLink := some (env.path ++ "/bin") }) := by
  unfold activate at hok
  split at hok
  next heq => rw [hfind] at heq; cases heq
  next env' heq =>
    rw [hfind] at heq
    injection heq with heq
    subst heq
    split at hok
    next => cases hok
    next fs' hc =>
      injection hok with hok
      subst hok
      exact ⟨rfl, createBinSymlink_ok_link hc⟩

/-- C1 witness: activating `dev` in a world with no existing link sets the
active reference and creates the link at `dev`'s bin directory. -/
theorem c1_witness :
    freshWorldA.penv.activeEnvironment = some devEnv ∧
    freshWorldA.fs = (match freshWorld.fs.binLink with
             | some _ => freshWorld.fs
             | none => { freshWorld.fs with binLink := some (devEnv.path ++ "/bin") }) :=
  c1_activate_leaves_existing_link freshWorld "dev" devEnv freshWorldA (by rfl) (by rfl)

/-- C10: a successful `activate` mutates only the in-memory
active-environment reference and the `<home>/bin` symlink — the persisted
index file (`penv.toml`) and every other component (repository name, home
dir, cache, environment list, on-disk directories) are untouched, so the
persisted active-environment alias is unchanged; `deactivate`, by contrast,
persists the new state before returning. -/
theorem c10_activate_does_not_persist :
    (∀ (w : World) (a : String) (w' : World), activate w a = .ok w' →
      w'.penvToml = w.penvToml ∧
      w'.penv.repositoryName = w.penv.repositoryName ∧
      w'.penv.homeDir = w.penv.homeDir ∧
      w'.penv.cacheHome = w.penv.cacheHome ∧
      w'.penv.cacheData = w.penv.cacheData ∧
      w'.penv.environments = w.penv.environments ∧
      w'.fs.dirs = w.fs.dirs) ∧
    (∀ w : World, (deactivate w).penvToml = some (serializePenv (deactivate w).penv)) := by
  constructor
  · intro w a w' hok
    unfold activate at hok
    split at hok
    next => cases hok
    next env heq =>
      split at hok
      next => cases hok
      next fs' hc =>
        injection hok with hok
        subst hok
        exact ⟨rfl, rfl, rfl, rfl, rfl, rfl, createBinSymlink_ok_dirs hc⟩
  · intro w
    rfl

/-- C10 witness: the frame equalities hold for the concrete successful
activation of `dev`. -/
theorem c10_witness :
    freshWorldA.penvToml = freshWorld.penvToml ∧
    freshWorldA.penv.repositoryName = freshWorld.penv.repositoryName ∧
    freshWorldA.penv.homeDir = freshWorld.penv.homeDir ∧
    freshWorldA.penv.cacheHome = freshWorld.penv.cacheHome ∧
    freshWorldA.penv.cacheData = freshWorld.penv.cacheData ∧
    freshWorldA.penv.environments = freshWorld.penv.environments ∧
    freshWorldA.fs.dirs = freshWorld.fs.dirs :=
  c10_activate_does_not_persist.1 freshWorld "dev" freshWorldA (by rfl)

theorem fetchConvert_ok_of_all_parse :
    ∀ (rs : List RawRelease), (∀ r ∈ rs, r.tagName.isEmpty = false) →
      (∀ r ∈ rs, (parseVersion (r.tagName.drop 1)).isSome) →
      ∃ l, fetchConvert rs = some (.ok l) ∧
        List.Forall₂ (fun raw rel => enrichRelease raw = some (.ok rel)) rs l := by
  intro rs
  induction rs with
  | nil => exact fun _ _ => ⟨[], rfl, List.Forall₂.nil⟩
  | cons r rs ih =>
    intro hne hp
    have hner := hne r (List.mem_cons_self r rs)
    have hpr := hp r (List.mem_cons_self r rs)
    obtain ⟨v, hv⟩ := Option.isSome_iff_exists.mp hpr
    have henr : enrichRelease r = some (.ok (enrichedRelease r v)) := by
      unfold enrichRelease
      rw [if_neg (by simp [hner]), hv]
    obtain ⟨l, hl, hfa⟩ :=
      ih (fun a ha => hne a (List.mem_cons_of_mem r ha))
        (fun a ha => hp a (List.mem_cons_of_mem r ha))
    refine ⟨_ :: l, ?_, List.Forall₂.cons henr hfa⟩
    simp only [fetchConvert, henr, hl, Option.map_some]
    rfl

theorem fetchConvert_error_of_bad :
    ∀ (rs : List RawRelease), (∀ r ∈ rs, r.tagName.isEmpty = false) →
      ∀ r ∈ rs, parseVersion (r.tagName.drop 1) = none →
      fetchConvert rs = some (.error ()) := by
  intro rs
  induction rs with
  | nil => intro _ r hr; simp at hr
  | cons x xs ih =>
    intro hne r hr hbad
    have hnex := hne x (List.mem_cons_self x xs)
    rcases List.mem_cons.mp hr with rfl | hr'
    · have hex : enrichRelease r = some (.error ()) := by
        unfold enrichRelease
        rw [if_neg (by simp [hnex]), hbad]
      simp [fetchConvert, hex]
    · cases hpx : parseVersion (x.tagName.drop 1) with
      | none =>
        have hex : enrichRelease x = some (.error ()) := by
          unfold enrichRelease
          rw [if_neg (by simp [hnex]), hpx]
        simp [fetchConvert, hex]
      | some v =>
        have hex : enrichRelease x = some (.ok (enrichedRelease x v)) := by
          unfold enrichRelease
          rw [if_neg (by simp [hnex]), hpx]
        have htail := ih (fun a ha => hne a (List.mem_cons_of_mem x ha)) r hr' hbad
        simp [fetchConvert, hex, htail, Except.map]

theorem fetchConvert_all_parse_of_ok :
    ∀ (rs : List RawRelease) (l : List Release), fetchConvert rs = some (.ok l) →
      ∀ r ∈ rs, (parseVersion (r.tagName.drop 1)).isSome := by
  intro rs
  induction rs with
  | nil => intro l _ r hr; simp at hr
  | cons x xs ih =>
    intro l hok r hr
    cases hex : enrichRelease x with
    | none => simp [fetchConvert, hex] at hok
    | some res =>
      cases res with
      | error e => simp [fetchConvert, hex] at hok
      | ok rel =>
        rcases List.mem_cons.mp hr with rfl | hr'
        · by_cases hemp : r.tagName.isEmpty
          · unfold enrichRelease at hex
            rw [if_pos hemp] at hex
            cases hex
          · unfold enrichRelease at hex
            rw [if_neg hemp] at hex
            cases hpx : parseVersion (r.tagName.drop 1) with
            | none => rw [hpx] at hex; cases hex
            | some v => simp
        · cases hxs : fetchConvert xs with
          | none => simp [fetchConvert, hex, hxs] at hok
          | some res' =>
            cases res' with
            | error e' => simp [fetchConvert, hex, hxs, Except.map] at hok
            | ok l' => exact ih l' hxs r hr'

/-- C7: `fetch_releases` converts the raw index with
`collect::<Result<_>>()`: when every release's tag parses as a semantic
version the complete, in-order enriched list is returned; if any single
release has an unparsable tag the entire call returns an error — no partial
list of the remaining parsable releases; and a returned list certifies that
every tag parsed.  (Tags are assumed nonempty: slicing `[1..]` out of an
empty tag is an out-of-bounds panic, not an error return.) -/
theorem c7_fetch_all_or_nothing (rs : List RawRelease)
    (hne : ∀ r ∈ rs, r.tagName.isEmpty = false) :
    ((∀ r ∈ rs, (parseVersion (r.tagName.drop 1)).isSome) →
      ∃ l, fetchConvert rs = some (.ok l) ∧
        List.Forall₂ (fun raw rel => enrichRelease raw = some (.ok rel)) rs l) ∧
    (∀ r ∈ rs, parseVersion (r.tagName.drop 1) = none →
      fetchConvert rs = some (.error ())) ∧
    (∀ l, fetchConvert rs = some (.ok l) →
      ∀ r ∈ rs, (parseVersion (r.tagName.drop 1)).isSome) :=
  ⟨fetchConvert_ok_of_all_parse rs hne,
   fun r hr hbad => fetchConvert_error_of_bad rs hne r hr hbad,
   fun l hok => fetchConvert_all_parse_of_ok rs l hok⟩

/-- C7 witness: one unparsable tag fails the whole two-element fetch; the
single-element good fetch returns the complete enriched list. -/
theorem c7_witness :
    fetchConvert [rawGood, rawBad] = some (.error ()) ∧
    ∃ l, fetchConvert [rawGood] = some (.ok l) ∧
      List.Forall₂ (fun raw rel => enrichRelease raw = some (.ok rel)) [rawGood] l :=
  ⟨(c7_fetch_all_or_nothing [rawGood, rawBad] (by decide)).2.1 rawBad (by simp) (by decide),
   (c7_fetch_all_or_nothing [rawGood] (by decide)).1 (by decide)⟩

/-- C8: during install of a release, an archive whose SHA-256 digest differs
from its published sidecar checksum fails `download_file` with
`ChecksumMismatch` and the whole install pipeline errors with the
installed-release list unchanged; an asset with no published checksum skips
verification and the download succeeds; the checksum failure occurs exactly
when a published checksum disagrees with the digest; and any failing archive
task fails the whole `download_release` join. -/
theorem c8_checksum_gate (fileName : String) (hash : List Nat)
    (expected : Option (List Nat)) (extr : Except Unit (List String))
    (records : List InstalledRelease)
    (mk : String × List String → InstalledRelease) :
    (downloadFileResult fileName hash expected extr = .error .checksumMismatch ↔
      ∃ e, expected = some e ∧ hash ≠ e) ∧
    (∀ e, expected = some e → hash ≠ e →
      installReleaseFinish records ((downloadFileResult fileName hash expected extr).map mk) =
        (records, some .checksumMismatch)) ∧
    (expected = none → ∀ files, extr = .ok files →
      downloadFileResult fileName hash expected extr = .ok (fileName, files)) ∧
    (∀ (results : List (Except DownloadError (String × List String))) (e : DownloadError),
      Except.error e ∈ results → ∃ e', downloadReleaseJoin results = .error e') := by
  refine ⟨?_, ?_, ?_, ?_⟩
  · cases expected with
    | none => cases extr <;> simp [downloadFileResult]
    | some e =>
      by_cases hne : hash = e
      · subst hne
        cases extr <;> simp [downloadFileResult]
      · cases extr <;> simp [downloadFileResult, hne]
  · intro e hexp hne
    subst hexp
    have hdl : downloadFileResult fileName hash (some e) extr = .error .checksumMismatch := by
      simp [downloadFileResult, hne]
    rw [hdl]
    rfl
  · intro hexp files hextr
    subst hexp; subst hextr
    rfl
  · intro results e h
    exact downloadReleaseJoin_error_of_mem h

/-- C8 witness: a concrete mismatching checksum aborts the install with the
cache record list unchanged, and a concrete checksum-less download succeeds. -/
theorem c8_witness :
    installReleaseFinish [binRel100]
        ((downloadFileResult "pcli-v1.0.0.tar.gz" [1, 2] (some [3, 4]) (.ok ["pcli"])).map
          (fun _ => binRel100)) = ([binRel100], some .checksumMismatch) ∧
    downloadFileResult "pcli-v1.0.0.tar.gz" [1, 2] none (.ok ["pcli"]) =
      .ok ("pcli-v1.0.0.tar.gz", ["pcli"]) :=
  ⟨(c8_checksum_gate "pcli-v1.0.0.tar.gz" [1, 2] (some [3, 4]) (.ok ["pcli"]) [binRel100]
      (fun _ => binRel100)).2.1 [3, 4] rfl (by decide),
   (c8_checksum_gate "pcli-v1.0.0.tar.gz" [1, 2] none (.ok ["pcli"]) [binRel100]
      (fun _ => binRel100)).2.2.1 rfl ["pcli"] rfl⟩

/-- C9: the `Latest` requirement matches a version iff it equals the maximum
version among the currently known candidates — an equality test against the
newest, not a range test — and the caller (`Cache::list_available`, like
`Penv::install_release`) passes as the comparand exactly the maximum of the
fetched releases: the releases it retains for `Latest` are precisely those
whose version is maximal among the fetched ones. -/
theorem c9_latest_matches_max (rs : List Release) (records : List InstalledRelease)
    (hne : rs ≠ []) :
    ∃ m, maxByKey (fun r : Release => r.version) rs = some m ∧ m ∈ rs ∧
      (∀ s ∈ rs, s.version ≤ m.version) ∧
      (∀ v : Version, VersionReqOrLatest.matches .latest v m.version = true ↔ v = m.version) ∧
      ∃ out, listAvailable rs (some (.versionReqOrLatest .latest)) records = .ok out ∧
        ∀ r : Release, (∃ b, (r, b) ∈ out) ↔ (r ∈ rs ∧ r.version = m.version) := by
  cases hmk : maxByKey (fun r : Release => r.version) rs with
  | none => rw [maxByKey_eq_none_iff] at hmk; exact absurd hmk hne
  | some m =>
    refine ⟨m, rfl, maxByKey_mem _ hmk, maxByKey_isMax _ hmk, ?_, ?_⟩
    · intro v
      simp [VersionReqOrLatest.matches]
    · unfold listAvailable
      rw [hmk]
      refine ⟨_, rfl, ?_⟩
      intro r
      constructor
      · rintro ⟨b, hb⟩
        simp only [List.mem_map, List.mem_filter] at hb
        obtain ⟨r', ⟨⟨hr'rs, hr'm⟩, heq⟩⟩ := hb
        obtain ⟨h1, -⟩ := Prod.mk.injEq .. ▸ heq
        subst h1
        simp only [VersionReqOrLatest.matches, beq_iff_eq] at hr'm
        exact ⟨hr'rs, hr'm⟩
      · rintro ⟨hrs, hver⟩
        refine ⟨(getInstalledRelease records (.version r.version)).isSome, ?_⟩
        simp only [List.mem_map, List.mem_filter]
        exact ⟨r, ⟨hrs, by simp [VersionReqOrLatest.matches, hver]⟩, rfl⟩

/-- C9 witness: the two-release candidate set `{1.0.0, 1.1.0}` has maximum
`1.1.0`, `Latest` matches exactly it, and `list_available` retains only it. -/
theorem c9_witness :
    ∃ m, maxByKey (fun r : Release => r.version) [rel100, rel110] = some m ∧
      m ∈ [rel100, rel110] ∧
      (∀ s ∈ [rel100, rel110], s.version ≤ m.version) ∧
      (∀ v : Version, VersionReqOrLatest.matches .latest v m.version = true ↔ v = m.version) ∧
      ∃ out, listAvailable [rel100, rel110] (some (.versionReqOrLatest .latest)) [] = .ok out ∧
        ∀ r : Release, (∃ b, (r, b) ∈ out) ↔ (r ∈ [rel100, rel110] ∧ r.version = m.version) :=
  c9_latest_matches_max [rel100, rel110] [] (by simp)

theorem listInstalledPred_repo (u : String) (rel : InstalledRelease) :
    listInstalledPred (.repo u) rel = some (isCheckoutWithUrl u rel) := by
  cases rel <;> rfl

theorem listInstalledPred_range (vr : VersionReq) (rel : InstalledRelease) :
    listInstalledPred (.versionReqOrLatest (.versionReq vr)) rel =
      some (binarySatisfies vr rel) := by
  cases rel <;> rfl

theorem listInstalled_latest_panic (records : List InstalledRelease)
    (h : ∃ r ∈ records, isBinaryRelease r = true) :
    retainP (listInstalledPred (.versionReqOrLatest .latest)) records = none := by
  obtain ⟨r, hr, hb⟩ := h
  cases r with
  | binary b => exact retainP_eq_none_of_mem _ hr rfl
  | gitCheckout c => cases hb

theorem listInstalled_latest_no_binary (records : List InstalledRelease)
    (h : ∀ r ∈ records, isBinaryRelease r = false) :
    retainP (listInstalledPred (.versionReqOrLatest .latest)) records = some [] := by
  induction records with
  | nil => rfl
  | cons x xs ih =>
    cases x with
    | binary b => cases h _ (List.mem_cons_self _ xs)
    | gitCheckout c =>
      have htail := ih (fun r hr => h r (List.mem_cons_of_mem _ hr))
      simp [retainP, listInstalledPred, htail]

/-- C5 counterexample: with one binary release `1.0.0` installed, a `Latest`
requirement makes `find_best_match` hit
`unreachable!("can't search installed for 'latest'")` inside `list_installed`
— a panic (`none`), so the call returns neither the maximum satisfying
release nor `None`, refuting "for a version requirement (including Latest),
the installed release with the maximum version among those satisfying it, or
None if none satisfy". -/
theorem c5_counterexample :
    findBestMatchP [binRel100] (.versionReqOrLatest .latest) = none := rfl

/-- C5 (amended): `find_best_match` behaves as claimed except for `Latest`:
for a repository requirement it returns the first installed checkout with
exactly the required URL (`None` if none; never a binary); for a semver-range
requirement it returns a satisfying installed binary release of maximal
version (`None` if none satisfy; never a checkout, and no panic); but for the
`Latest` requirement it panics whenever any binary release is installed, and
returns `None` otherwise. -/
theorem c5_find_best_match (records : List InstalledRelease) :
    (∀ u : String, findBestMatchP records (.repo u) =
        some ((records.filter (isCheckoutWithUrl u)).head?)) ∧
    (findBestMatchP records (.versionReqOrLatest .latest) =
        if records.any isBinaryRelease then none else some none) ∧
    (∀ vr : VersionReq,
      match findBestMatchP records (.versionReqOrLatest (.versionReq vr)) with
      | none => False
      | some none => records.filter (binarySatisfies vr) = []
      | some (some m) =>
          m ∈ records.filter (binarySatisfies vr) ∧
          ∃ mv, findBestMatchKey m = some mv ∧
            ∀ r ∈ records.filter (binarySatisfies vr), ∀ rv,
              findBestMatchKey r = some rv → rv ≤ mv) := by
  refine ⟨?_, ?_, ?_⟩
  · intro u
    simp only [findBestMatchP, listInstalledP]
    rw [retainP_eq_filter _ (isCheckoutWithUrl u) (listInstalledPred_repo u) records]
  · by_cases hb : records.any isBinaryRelease
    · rw [if_pos hb]
      simp only [findBestMatchP, listInstalledP]
      rw [listInstalled_latest_panic records (List.any_eq_true.mp hb)]
    · rw [if_neg hb]
      simp only [findBestMatchP, listInstalledP]
      rw [listInstalled_latest_no_binary records ?_]
      · rfl
      · intro r hr
        by_cases h : isBinaryRelease r
        · exact absurd (List.any_eq_true.mpr ⟨r, hr, h⟩) hb
        · simpa using h
  · intro vr
    simp only [findBestMatchP, listInstalledP]
    rw [retainP_eq_filter _ (binarySatisfies vr) (listInstalledPred_range vr) records]
    have hall : ∀ a ∈ records.filter (binarySatisfies vr), (findBestMatchKey a).isSome := by
      intro a ha
      have hpa := (List.mem_filter.mp ha).2
      cases a with
      | binary b => simp [findBestMatchKey]
      | gitCheckout c => cases hpa
    by_cases hsat : records.filter (binarySatisfies vr) = []
    · rw [hsat]
      exact rfl
    · obtain ⟨m, km, hm, hmem, hkm, hmax⟩ := maxByKeyOpt_spec findBestMatchKey hsat hall
      simp only [hm]
      exact ⟨hmem, km, hkm, fun r hr rv hrv => hmax r hr rv hrv⟩

/-- C5 witness: the repository-requirement branch at a concrete one-checkout
cache returns that checkout. -/
theorem c5_witness :
    findBestMatchP [checkoutRel] (.repo repoUrl) =
      some ((([checkoutRel] : List InstalledRelease).filter (isCheckoutWithUrl repoUrl)).head?) :=
  (c5_find_best_match [checkoutRel]).1 repoUrl
